import Mathlib

/-!
Verification of the point-set route-matching engine
(`src/lib/matching.ts` of the get-beta-poc repository).

The TypeScript core is shallowly embedded here:
* JS numbers are modelled as real numbers (`ℝ`); the JS value `Infinity`,
  which the engine uses as a "no match" sentinel for distances, is modelled
  by working in `ℝ≥0∞` for distance-valued results (all distances produced
  by the engine are nonnegative).
* `Math.round` is modelled by Mathlib's `round` (both round half-up).
* `Array.prototype.sort` with a comparator is a stable sort; it is modelled
  by `List.insertionSort` with the corresponding non-strict relation, which
  has exactly the stable-sort semantics.
* The mutable loops of the source are modelled by folds / explicit
  state passing.
-/

open scoped ENNReal

namespace Matching

/-- A 2-D point, mirroring the `Point` type (`{ x: number; y: number }`). -/
@[ext]
structure Point where
  x : ℝ
  y : ℝ

/-- One reference photo of a route, mirroring the `RouteImage` data:
an id, a filename, the raw tapped points and the precomputed normalized
points. -/
structure LabeledImage where
  id : String
  filename : String
  points : List Point
  normalizedPoints : List Point

/-- A stored route, mirroring the `Route` data. -/
structure Route where
  id : String
  name : String
  images : List LabeledImage
  createdAt : String

/-- Search result, mirroring `interface SearchResult`.  Similarity scores
produced by the engine are rounded integers, hence `ℤ`. -/
structure SearchResult where
  route : Route
  similarity : ℤ
  matchedImageId : String

/-- Weight record passed to `combinedSimilarity` (`{ mhd: number; order: number }`). -/
structure Weights where
  mhd : ℝ
  order : ℝ

/-- Matching options with optional fields, mirroring `interface MatchingOptions`. -/
structure MatchingOptions where
  maxDistance : Option ℝ
  mhdWeight : Option ℝ
  orderWeight : Option ℝ

/-- Options after all fields are resolved against the defaults. -/
structure ResolvedOptions where
  maxDistance : ℝ
  mhdWeight : ℝ
  orderWeight : ℝ

/-- The defaults `DEFAULT_OPTIONS = { maxDistance: 0.6, mhdWeight: 0.6, orderWeight: 0.4 }`. -/
noncomputable def defaultOptions : ResolvedOptions :=
  ⟨0.6, 0.6, 0.4⟩

/-- The option merge `{ ...DEFAULT_OPTIONS, ...options }` at the top of
`searchRoutes`. -/
noncomputable def resolveOptions (o : MatchingOptions) : ResolvedOptions :=
  ⟨o.maxDistance.getD defaultOptions.maxDistance,
   o.mhdWeight.getD defaultOptions.mhdWeight,
   o.orderWeight.getD defaultOptions.orderWeight⟩

/-- An empty options object (the default argument `options = {}`). -/
def emptyOptions : MatchingOptions := ⟨none, none, none⟩

/-- Euclidean distance between two points, mirroring `distance(a, b)`:
`Math.sqrt(dx * dx + dy * dy)`. -/
noncomputable def distance (a b : Point) : ℝ :=
  Real.sqrt ((a.x - b.x) * (a.x - b.x) + (a.y - b.y) * (a.y - b.y))

/-- Arithmetic mean of a list, mirroring `mean(values)`: returns `0` for an
empty list, otherwise the sum divided by the length. -/
noncomputable def mean (values : List ℝ) : ℝ :=
  if values = [] then 0 else values.sum / values.length

/-- Normalization of a point set, mirroring `normalizePoints(points)`:
translate to the centroid, then scale so the RMS radius is 1; special
cases for 0 points, 1 point, and coincident points (RMS 0). -/
noncomputable def normalizePoints (points : List Point) : List Point :=
  if points.length = 0 then []
  else if points.length = 1 then [⟨0, 0⟩]
  else
    let centroid : Point := ⟨mean (points.map (fun p => p.x)), mean (points.map (fun p => p.y))⟩
    let centered := points.map (fun p => (⟨p.x - centroid.x, p.y - centroid.y⟩ : Point))
    let squaredDistances := centered.map (fun p => p.x * p.x + p.y * p.y)
    let rms := Real.sqrt (mean squaredDistances)
    if rms = 0 then centered
    else centered.map (fun p => (⟨p.x / rms, p.y / rms⟩ : Point))

/-- Minimum of `f` over a list, mirroring the spread call
`Math.min(...l.map(f))`.  In the source this is only evaluated on
non-empty lists (the empty case sits behind an emptiness guard); the
unreachable empty case is modelled as `0`. -/
noncomputable def minOver (f : Point → ℝ) : List Point → ℝ
  | [] => 0
  | p :: ps => ps.foldl (fun m q => min m (f q)) (f p)

/-- Modified Hausdorff distance, mirroring `modifiedHausdorffDistance(A, B)`:
`Infinity` (modelled as `⊤`) when either set is empty, otherwise the
maximum of the two directed mean nearest-neighbour distances. -/
noncomputable def modifiedHausdorffDistance (A B : List Point) : ℝ≥0∞ :=
  if A.length = 0 ∨ B.length = 0 then ⊤
  else
    let forwardDist := mean (A.map (fun a => minOver (fun b => distance a b) B))
    let reverseDist := mean (B.map (fun b => minOver (fun a => distance a b) A))
    ENNReal.ofReal (max forwardDist reverseDist)

/-- Distance-to-similarity conversion, mirroring
`distanceToSimilarity(distance, maxDistance)`: `0` once the distance
reaches `maxDistance`, otherwise `Math.round(Math.max(0, 1 - d/maxDistance) * 100)`.
The incoming distance is an engine-produced distance (nonnegative, possibly
`Infinity`), hence `ℝ≥0∞`. -/
noncomputable def distanceToSimilarity (d : ℝ≥0∞) (maxDistance : ℝ) : ℤ :=
  if ENNReal.ofReal maxDistance ≤ d then 0
  else round ((max 0 (1 - d.toReal / maxDistance)) * 100)

/-- One step of the inner DTW loop (`for j`).  Given the current `seqA`
element `a`, the value `diag` of the previous row at column `j-1`, the
value `left` just written at column `j-1` of the current row, the previous
row from column `j` on, and the remaining `seqB` elements, produce the
current row from column `j` on.  Each produced cell is
`cost + Math.min(dtw[i-1][j], dtw[i][j-1], dtw[i-1][j-1])` with
`cost = Math.abs(seqA[i-1] - seqB[j-1])`. -/
noncomputable def dtwRowAux (a : ℝ) : ℝ≥0∞ → ℝ≥0∞ → List ℝ≥0∞ → List ℝ → List ℝ≥0∞
  | _, _, _, [] => []
  | _, _, [], _ :: _ => []
  | diag, left, up :: prevRest, b :: bRest =>
    let v := ENNReal.ofReal |a - b| + min up (min left diag)
    v :: dtwRowAux a up v prevRest bRest

/-- One step of the outer DTW loop (`for i`): from row `i-1` of the table
to row `i`.  Column 0 keeps its initialization value `Infinity`. -/
noncomputable def dtwNextRow (a : ℝ) (prev : List ℝ≥0∞) (seqB : List ℝ) : List ℝ≥0∞ :=
  match prev with
  | [] => []
  | d :: rest => ⊤ :: dtwRowAux a d ⊤ rest seqB

/-- Row 0 of the DTW table after initialization: `dtw[0][0] = 0`, every
other cell still `Infinity`. -/
noncomputable def dtwRow0 (m : ℕ) : List ℝ≥0∞ :=
  0 :: List.replicate m ⊤

/-- The last row (`dtw[n]`) of the DTW table built by the two nested loops
of `dtwDistance`. -/
noncomputable def dtwLastRow (seqA seqB : List ℝ) : List ℝ≥0∞ :=
  seqA.foldl (fun row a => dtwNextRow a row seqB) (dtwRow0 seqB.length)

/-- Dynamic-time-warping distance, mirroring `dtwDistance(seqA, seqB)`:
`Infinity` when either sequence is empty, otherwise the bottom-right table
cell `dtw[n][m]` divided by `Math.max(n, m)`. -/
noncomputable def dtwDistance (seqA seqB : List ℝ) : ℝ≥0∞ :=
  if seqA.length = 0 ∨ seqB.length = 0 then ⊤
  else ((dtwLastRow seqA seqB).getD seqB.length ⊤) / (max seqA.length seqB.length : ℕ)

/-- Stable ascending sort by the `y` coordinate, mirroring
`[...points].sort((a, b) => a.y - b.y)`. -/
noncomputable def sortByY (points : List Point) : List Point :=
  List.insertionSort (fun a b => a.y ≤ b.y) points

/-- Minimum of a list of reals, mirroring the spread call `Math.min(...seq)`;
only evaluated on non-empty sequences in the source, the unreachable empty
case is modelled as `0`. -/
noncomputable def jsMin : List ℝ → ℝ
  | [] => 0
  | v :: vs => vs.foldl (fun m w => min m w) v

/-- Maximum of a list of reals, mirroring `Math.max(...seq)`; the
unreachable empty case is modelled as `0`. -/
noncomputable def jsMax : List ℝ → ℝ
  | [] => 0
  | v :: vs => vs.foldl (fun m w => max m w) v

/-- Min-max normalization of a sequence into `[0,1]`, mirroring the local
`normalize` helper inside `relativeOrderSimilarity`: every value maps to
`0.5` when all values coincide. -/
noncomputable def minmaxNormalize (seq : List ℝ) : List ℝ :=
  let mn := jsMin seq
  let mx := jsMax seq
  if mx = mn then seq.map (fun _ => 0.5)
  else seq.map (fun v => (v - mn) / (mx - mn))

/-- Relative-order similarity, mirroring `relativeOrderSimilarity(pointsA, pointsB)`:
sort each set by `y`, take the `x` sequences, min-max normalize them, run
DTW, and convert the distance to a 0–100 score. -/
noncomputable def relativeOrderSimilarity (pointsA pointsB : List Point) : ℤ :=
  if pointsA.length = 0 ∨ pointsB.length = 0 then 0
  else if pointsA.length = 1 ∧ pointsB.length = 1 then 100
  else
    let xSeqA := (sortByY pointsA).map (fun p => p.x)
    let xSeqB := (sortByY pointsB).map (fun p => p.x)
    let normA := minmaxNormalize xSeqA
    let normB := minmaxNormalize xSeqB
    let dist := dtwDistance normA normB
    let maxDist : ℝ := 1.0
    if ENNReal.ofReal maxDist ≤ dist then 0
    else round ((1 - dist.toReal / maxDist) * 100)

/-- Combined similarity, mirroring `combinedSimilarity(mhdSimilarity, orderSimilarity, weights)`:
the rounded weighted sum of the two scores. -/
noncomputable def combinedSimilarity (mhdSimilarity orderSimilarity : ℝ) (weights : Weights) : ℤ :=
  round (weights.mhd * mhdSimilarity + weights.order * orderSimilarity)

/-- The default weights `{ mhd: 0.6, order: 0.4 }` of `combinedSimilarity`. -/
noncomputable def defaultWeights : Weights := ⟨0.6, 0.4⟩

/-- Similarity of the query against one stored image: the body of the inner
loop of `searchRoutes` (MHD similarity blended with order similarity). -/
noncomputable def imageSimilarity (normalizedQuery queryPoints : List Point)
    (opts : ResolvedOptions) (image : LabeledImage) : ℤ :=
  let mhd := modifiedHausdorffDistance normalizedQuery image.normalizedPoints
  let mhdSim := distanceToSimilarity mhd opts.maxDistance
  let orderSim := relativeOrderSimilarity queryPoints image.points
  combinedSimilarity (mhdSim : ℝ) (orderSim : ℝ) ⟨opts.mhdWeight, opts.orderWeight⟩

/-- Scoring of one route: the per-route loop of `searchRoutes`, tracking
the best strictly-improving similarity (starting from `0`) and the id of
the image that produced it (starting from `""`). -/
noncomputable def scoreRoute (normalizedQuery queryPoints : List Point)
    (opts : ResolvedOptions) (route : Route) : SearchResult :=
  let best := route.images.foldl
    (fun acc image =>
      let similarity := imageSimilarity normalizedQuery queryPoints opts image
      if acc.1 < similarity then (similarity, image.id) else acc)
    ((0 : ℤ), "")
  ⟨route, best.1, best.2⟩

/-- The result comparator `(a, b) => b.similarity - a.similarity` of
`searchRoutes`, as the non-strict descending-score relation a stable sort
realizes. -/
def resultLE (a b : SearchResult) : Prop := b.similarity ≤ a.similarity

instance : DecidableRel resultLE := fun a b => Int.decLe b.similarity a.similarity

/-- Route search, mirroring `searchRoutes(queryPoints, routes, maxResults, options)`:
resolve options, normalize the query once, score every route by its best
image, stably sort by descending similarity and keep the first
`maxResults` entries. -/
noncomputable def searchRoutes (queryPoints : List Point) (routes : List Route)
    (maxResults : ℕ) (options : MatchingOptions) : List SearchResult :=
  let opts := resolveOptions options
  let normalizedQuery := normalizePoints queryPoints
  let results := routes.map (scoreRoute normalizedQuery queryPoints opts)
  let sorted := List.insertionSort resultLE results
  sorted.take maxResults

/-- Reference DTW table from the specification's words: `table[0][0] = 0`,
the remaining border cells keep the `Infinity` initialization, and
`cost(i,j) = |seqA[i−1] − seqB[j−1]| + min(table[i−1][j], table[i][j−1], table[i−1][j−1])`. -/
noncomputable def dtwTable (seqA seqB : List ℝ) : ℕ → ℕ → ℝ≥0∞
  | 0, 0 => 0
  | _ + 1, 0 => ⊤
  | 0, _ + 1 => ⊤
  | i + 1, j + 1 =>
    ENNReal.ofReal |seqA.getD i 0 - seqB.getD j 0| +
      min (dtwTable seqA seqB i (j + 1)) (min (dtwTable seqA seqB (i + 1) j) (dtwTable seqA seqB i j))
termination_by i j => (i, j)

/-- Reference DTW distance from the specification's words: `+∞` when either
sequence is empty, otherwise `table[n][m] / max(n, m)`. -/
noncomputable def dtwSpec (seqA seqB : List ℝ) : ℝ≥0∞ :=
  if seqA.length = 0 ∨ seqB.length = 0 then ⊤
  else dtwTable seqA seqB seqA.length seqB.length / (max seqA.length seqB.length : ℕ)

/-- Order similarity as described by the specification: degenerate cases,
then sort by `y`, take the `x` sequences, min-max normalize, run the DTW
distance and convert through `round(100 · max(0, 1 − distance))` — the
`max(0, ·)` clamp is the truncated subtraction of `ℝ≥0∞`. -/
noncomputable def orderSimilaritySpec (pointsA pointsB : List Point) : ℤ :=
  if pointsA.length = 0 ∨ pointsB.length = 0 then 0
  else if pointsA.length = 1 ∧ pointsB.length = 1 then 100
  else
    let seqA := minmaxNormalize ((sortByY pointsA).map (fun p => p.x))
    let seqB := minmaxNormalize ((sortByY pointsB).map (fun p => p.x))
    let dist := dtwDistance seqA seqB
    round ((100 * ((1 : ℝ≥0∞) - dist)).toReal)

/-!
Division-checked variants.  They mirror the source functions line by
line, but every division the source performs goes through `divC` / `divE`,
which fail (return `none`) on a zero denominator.  Proving them equal to
`some` of the plain functions shows every division of the engine is
well-defined on the corresponding branch.
-/

/-- Checked real division. -/
noncomputable def divC (a b : ℝ) : Option ℝ :=
  if b = 0 then none else some (a / b)

/-- Checked `ℝ≥0∞`-by-`ℕ` division. -/
noncomputable def divE (a : ℝ≥0∞) (n : ℕ) : Option ℝ≥0∞ :=
  if n = 0 then none else some (a / n)

/-- Checked `mean`. -/
noncomputable def meanC (values : List ℝ) : Option ℝ :=
  if values = [] then some 0 else divC values.sum values.length

/-- Checked `normalizePoints`. -/
noncomputable def normalizePointsC (points : List Point) : Option (List Point) :=
  if points.length = 0 then some []
  else if points.length = 1 then some [⟨0, 0⟩]
  else do
    let cx ← meanC (points.map (fun p => p.x))
    let cy ← meanC (points.map (fun p => p.y))
    let centered := points.map (fun p => (⟨p.x - cx, p.y - cy⟩ : Point))
    let msq ← meanC (centered.map (fun p => p.x * p.x + p.y * p.y))
    let rms := Real.sqrt msq
    if rms = 0 then some centered
    else centered.mapM (fun p => do
      let nx ← divC p.x rms
      let ny ← divC p.y rms
      some (⟨nx, ny⟩ : Point))

/-- Checked `modifiedHausdorffDistance`. -/
noncomputable def modifiedHausdorffDistanceC (A B : List Point) : Option ℝ≥0∞ :=
  if A.length = 0 ∨ B.length = 0 then some ⊤
  else do
    let forwardDist ← meanC (A.map (fun a => minOver (fun b => distance a b) B))
    let reverseDist ← meanC (B.map (fun b => minOver (fun a => distance a b) A))
    some (ENNReal.ofReal (max forwardDist reverseDist))

/-- Checked `distanceToSimilarity`. -/
noncomputable def distanceToSimilarityC (d : ℝ≥0∞) (maxDistance : ℝ) : Option ℤ :=
  if ENNReal.ofReal maxDistance ≤ d then some 0
  else do
    let q ← divC d.toReal maxDistance
    some (round ((max 0 (1 - q)) * 100))

/-- Checked `dtwDistance` (the loop body performs no division; the final
length normalization does). -/
noncomputable def dtwDistanceC (seqA seqB : List ℝ) : Option ℝ≥0∞ :=
  if seqA.length = 0 ∨ seqB.length = 0 then some ⊤
  else divE ((dtwLastRow seqA seqB).getD seqB.length ⊤) (max seqA.length seqB.length)

/-- Checked min-max normalization. -/
noncomputable def minmaxNormalizeC (seq : List ℝ) : Option (List ℝ) :=
  let mn := jsMin seq
  let mx := jsMax seq
  if mx = mn then some (seq.map (fun _ => 0.5))
  else seq.mapM (fun v => divC (v - mn) (mx - mn))

/-- Checked `relativeOrderSimilarity`. -/
noncomputable def relativeOrderSimilarityC (pointsA pointsB : List Point) : Option ℤ :=
  if pointsA.length = 0 ∨ pointsB.length = 0 then some 0
  else if pointsA.length = 1 ∧ pointsB.length = 1 then some 100
  else do
    let normA ← minmaxNormalizeC ((sortByY pointsA).map (fun p => p.x))
    let normB ← minmaxNormalizeC ((sortByY pointsB).map (fun p => p.x))
    let dist ← dtwDistanceC normA normB
    let maxDist : ℝ := 1.0
    if ENNReal.ofReal maxDist ≤ dist then some 0
    else do
      let q ← divC dist.toReal maxDist
      some (round ((1 - q) * 100))

/-- Checked `combinedSimilarity` (it performs no division). -/
noncomputable def combinedSimilarityC (mhdSimilarity orderSimilarity : ℝ)
    (weights : Weights) : Option ℤ :=
  some (round (weights.mhd * mhdSimilarity + weights.order * orderSimilarity))

/-- Checked `imageSimilarity`. -/
noncomputable def imageSimilarityC (normalizedQuery queryPoints : List Point)
    (opts : ResolvedOptions) (image : LabeledImage) : Option ℤ := do
  let mhd ← modifiedHausdorffDistanceC normalizedQuery image.normalizedPoints
  let mhdSim ← distanceToSimilarityC mhd opts.maxDistance
  let orderSim ← relativeOrderSimilarityC queryPoints image.points
  combinedSimilarityC (mhdSim : ℝ) (orderSim : ℝ) ⟨opts.mhdWeight, opts.orderWeight⟩

/-- Checked `scoreRoute`. -/
noncomputable def scoreRouteC (normalizedQuery queryPoints : List Point)
    (opts : ResolvedOptions) (route : Route) : Option SearchResult := do
  let best ← route.images.foldlM
    (fun acc image => do
      let similarity ← imageSimilarityC normalizedQuery queryPoints opts image
      pure (if acc.1 < similarity then (similarity, image.id) else acc))
    ((0 : ℤ), "")
  pure ⟨route, best.1, best.2⟩

/-- Checked `searchRoutes`. -/
noncomputable def searchRoutesC (queryPoints : List Point) (routes : List Route)
    (maxResults : ℕ) (options : MatchingOptions) : Option (List SearchResult) := do
  let opts := resolveOptions options
  let normalizedQuery ← normalizePointsC queryPoints
  let results ← routes.mapM (scoreRouteC normalizedQuery queryPoints opts)
  pure ((List.insertionSort resultLE results).take maxResults)

/-! Helper lemmas about the geometric primitives. -/

theorem distance_nonneg (a b : Point) : 0 ≤ distance a b :=
  Real.sqrt_nonneg _

theorem distance_self (a : Point) : distance a a = 0 := by
  simp [distance]

theorem distance_comm (a b : Point) : distance a b = distance b a := by
  unfold distance
  ring_nf

theorem mean_nil : mean [] = 0 := by
  simp [mean]

theorem mean_nonneg {l : List ℝ} (h : ∀ x ∈ l, 0 ≤ x) : 0 ≤ mean l := by
  unfold mean
  split
  · exact le_refl 0
  · exact div_nonneg (List.sum_nonneg h) (Nat.cast_nonneg _)

theorem mean_eq_zero {l : List ℝ} (h : ∀ x ∈ l, x = 0) : mean l = 0 := by
  unfold mean
  split
  · rfl
  · rw [List.sum_eq_zero h, zero_div]

theorem mean_const {l : List ℝ} {c : ℝ} (h : ∀ x ∈ l, x = c) (hl : l ≠ []) :
    mean l = c := by
  unfold mean
  have hlen : (l.length : ℝ) ≠ 0 := by
    exact_mod_cast (List.length_pos_of_ne_nil hl).ne'
  rw [if_neg hl, List.sum_eq_card_nsmul l c h, nsmul_eq_mul,
    mul_comm, mul_div_assoc, div_self hlen, mul_one]

theorem foldl_min_le_init (f : Point → ℝ) :
    ∀ (ps : List Point) (init : ℝ), ps.foldl (fun m q => min m (f q)) init ≤ init := by
  intro ps
  induction ps with
  | nil => intro init; exact le_rfl
  | cons p ps ih =>
    intro init
    exact le_trans (ih (min init (f p))) (min_le_left _ _)

theorem foldl_min_le_mem (f : Point → ℝ) {q : Point} :
    ∀ (ps : List Point), q ∈ ps → ∀ init : ℝ,
      ps.foldl (fun m w => min m (f w)) init ≤ f q := by
  intro ps
  induction ps with
  | nil => intro h; exact absurd h (List.not_mem_nil q)
  | cons p ps ih =>
    intro h init
    rcases List.mem_cons.1 h with h | h
    · subst h
      exact le_trans (foldl_min_le_init f ps _) (min_le_right _ _)
    · exact ih h _

theorem le_foldl_min (f : Point → ℝ) {c : ℝ} :
    ∀ (ps : List Point) (init : ℝ), c ≤ init → (∀ q ∈ ps, c ≤ f q) →
      c ≤ ps.foldl (fun m w => min m (f w)) init := by
  intro ps
  induction ps with
  | nil => intro init h _; exact h
  | cons p ps ih =>
    intro init h hall
    exact ih _ (le_min h (hall p (List.mem_cons_self p ps)))
      (fun q hq => hall q (List.mem_cons_of_mem p hq))

theorem minOver_le (f : Point → ℝ) {l : List Point} {q : Point} (hq : q ∈ l) :
    minOver f l ≤ f q := by
  cases l with
  | nil => exact absurd hq (List.not_mem_nil q)
  | cons p ps =>
    rcases List.mem_cons.1 hq with h | h
    · subst h
      exact foldl_min_le_init f ps _
    · exact foldl_min_le_mem f ps h _

theorem minOver_nonneg (f : Point → ℝ) {l : List Point} (h : ∀ q ∈ l, 0 ≤ f q) :
    0 ≤ minOver f l := by
  cases l with
  | nil => exact le_rfl
  | cons p ps =>
    exact le_foldl_min f ps (f p) (h p (List.mem_cons_self p ps))
      (fun q hq => h q (List.mem_cons_of_mem p hq))

theorem minOver_congr {f g : Point → ℝ} {l : List Point}
    (h : ∀ q ∈ l, f q = g q) : minOver f l = minOver g l := by
  cases l with
  | nil => rfl
  | cons p ps =>
    show ps.foldl (fun m q => min m (f q)) (f p) = ps.foldl (fun m q => min m (g q)) (g p)
    rw [h p (List.mem_cons_self p ps)]
    have : ∀ (ps' : List Point) (init : ℝ), (∀ q ∈ ps', f q = g q) →
        ps'.foldl (fun m q => min m (f q)) init = ps'.foldl (fun m q => min m (g q)) init := by
      intro ps'
      induction ps' with
      | nil => intro init _; rfl
      | cons r rs ih =>
        intro init hall
        show rs.foldl _ (min init (f r)) = rs.foldl _ (min init (g r))
        rw [hall r (List.mem_cons_self r rs)]
        exact ih _ (fun q hq => hall q (List.mem_cons_of_mem r hq))
    exact this ps (g p) (fun q hq => h q (List.mem_cons_of_mem p hq))

theorem mean_replicate {n : ℕ} (hn : n ≠ 0) (c : ℝ) : mean (List.replicate n c) = c :=
  mean_const (fun _ hx => List.eq_of_mem_replicate hx) (by simp [hn])

/-- C8: `normalizePoints` returns the empty set for an empty input, the
single point `(0,0)` for any one-point input, and for an input of length
at least 2 whose points all coincide it returns the centroid-translated
all-zero points unscaled; in every case the output has the same length as
the input. -/
theorem normalizePoints_edge_cases :
    normalizePoints [] = [] ∧
    (∀ p : Point, normalizePoints [p] = [⟨0, 0⟩]) ∧
    (∀ (points : List Point) (q : Point), 2 ≤ points.length → (∀ p ∈ points, p = q) →
      normalizePoints points = points.map (fun _ => (⟨0, 0⟩ : Point))) ∧
    (∀ points : List Point, (normalizePoints points).length = points.length) := by
  refine ⟨by simp [normalizePoints], fun p => by simp [normalizePoints], ?_, ?_⟩
  · intro points q h2 hall
    have hrep : points = List.replicate points.length q :=
      List.eq_replicate_iff.mpr ⟨rfl, hall⟩
    rw [hrep, List.map_replicate]
    generalize points.length = n at h2
    have hn0 : n ≠ 0 := by omega
    have hn1 : n ≠ 1 := by omega
    simp only [normalizePoints, List.length_replicate, if_neg hn0, if_neg hn1,
      List.map_replicate, mean_replicate hn0, sub_self]
    norm_num [mean_replicate hn0]
  · intro points
    by_cases h0 : points.length = 0
    · simp [normalizePoints, h0]
    · by_cases h1 : points.length = 1
      · simp [normalizePoints, h0, h1]
      · simp only [normalizePoints, if_neg h0, if_neg h1]
        split <;> simp

/-- C8 witness: a concrete coincident two-point input. -/
theorem normalizePoints_edge_cases_witness :
    2 ≤ ([⟨5, 5⟩, ⟨5, 5⟩] : List Point).length ∧
    (∀ p ∈ ([⟨5, 5⟩, ⟨5, 5⟩] : List Point), p = (⟨5, 5⟩ : Point)) ∧
    normalizePoints [⟨5, 5⟩, ⟨5, 5⟩] = [⟨0, 0⟩, ⟨0, 0⟩] := by
  have hcoin : ∀ p ∈ ([⟨5, 5⟩, ⟨5, 5⟩] : List Point), p = (⟨5, 5⟩ : Point) := by
    intro p hp
    simp only [List.mem_cons, List.mem_singleton, List.not_mem_nil, or_false] at hp
    rcases hp with h | h <;> exact h
  refine ⟨by simp, hcoin, ?_⟩
  have h := normalizePoints_edge_cases.2.2.1 [⟨5, 5⟩, ⟨5, 5⟩] ⟨5, 5⟩ (by simp) hcoin
  simpa using h

/-- C3: the modified Hausdorff distance is `+∞` when either input set is
empty; for non-empty inputs it is the maximum of the two directed mean
nearest-neighbour distances; it is symmetric, and zero on any identical
non-empty pair. -/
theorem modifiedHausdorffDistance_spec :
    (∀ B : List Point, modifiedHausdorffDistance [] B = ⊤) ∧
    (∀ A : List Point, modifiedHausdorffDistance A [] = ⊤) ∧
    (∀ A B : List Point, A ≠ [] → B ≠ [] →
      modifiedHausdorffDistance A B =
        ENNReal.ofReal
          (max (mean (A.map (fun a => minOver (fun b => distance a b) B)))
               (mean (B.map (fun b => minOver (fun a => distance a b) A))))) ∧
    (∀ A B : List Point, modifiedHausdorffDistance A B = modifiedHausdorffDistance B A) ∧
    (∀ A : List Point, A ≠ [] → modifiedHausdorffDistance A A = 0) := by
  have hswap : ∀ (A B : List Point),
      A.map (fun a => minOver (fun b => distance a b) B) =
      A.map (fun b => minOver (fun a => distance a b) B) := by
    intro A B
    refine List.map_congr_left ?_
    intro a _
    exact minOver_congr (fun q _ => distance_comm a q)
  refine ⟨fun B => by simp [modifiedHausdorffDistance],
    fun A => by simp [modifiedHausdorffDistance], ?_, ?_, ?_⟩
  · intro A B hA hB
    unfold modifiedHausdorffDistance
    rw [if_neg]
    push_neg
    exact ⟨by simpa using List.length_pos_of_ne_nil hA |>.ne',
      by simpa using List.length_pos_of_ne_nil hB |>.ne'⟩
  · intro A B
    unfold modifiedHausdorffDistance
    by_cases hA : A.length = 0 <;> by_cases hB : B.length = 0
    · simp [hA, hB]
    · simp [hA, hB]
    · simp [hA, hB]
    · rw [if_neg (by simp [hA, hB]), if_neg (by simp [hA, hB])]
      dsimp only
      rw [max_comm]
      congr 1
      rw [hswap A B, hswap B A]
  · intro A hA
    unfold modifiedHausdorffDistance
    rw [if_neg (by simpa using List.length_pos_of_ne_nil hA |>.ne')]
    dsimp only
    have hzero : mean (A.map (fun a => minOver (fun b => distance a b) A)) = 0 := by
      refine mean_eq_zero ?_
      intro x hx
      obtain ⟨a, ha, rfl⟩ := List.mem_map.1 hx
      refine le_antisymm ?_ (minOver_nonneg _ (fun q _ => distance_nonneg a q))
      calc minOver (fun b => distance a b) A ≤ distance a a := minOver_le _ ha
        _ = 0 := distance_self a
    have hzero' : mean (A.map (fun b => minOver (fun a => distance a b) A)) = 0 := by
      rw [← hswap A A]
      exact hzero
    rw [hzero, hzero', max_self]
    simp

/-- C3 witness: the hypotheses of the non-empty clauses hold at a concrete
one-point set. -/
theorem modifiedHausdorffDistance_spec_witness :
    ([⟨0, 0⟩] : List Point) ≠ [] ∧
    modifiedHausdorffDistance [⟨0, 0⟩] [⟨0, 0⟩] = 0 :=
  ⟨by simp, modifiedHausdorffDistance_spec.2.2.2.2 [⟨0, 0⟩] (by simp)⟩

theorem sum_map_affine (l : List ℝ) (k c : ℝ) :
    (l.map (fun v => k * v + c)).sum = k * l.sum + c * l.length := by
  induction l with
  | nil => simp
  | cons v vs ih =>
    simp only [List.map_cons, List.sum_cons, ih, List.length_cons]
    push_cast
    ring

theorem mean_affine {l : List ℝ} (hl : l ≠ []) (k c : ℝ) :
    mean (l.map (fun v => k * v + c)) = k * mean l + c := by
  have hlen : (l.length : ℝ) ≠ 0 := by
    exact_mod_cast (List.length_pos_of_ne_nil hl).ne'
  unfold mean
  rw [if_neg (by simpa using hl), if_neg hl, sum_map_affine, List.length_map]
  field_simp

theorem mean_smul (l : List ℝ) (k : ℝ) :
    mean (l.map (fun v => k * v)) = k * mean l := by
  unfold mean
  by_cases hl : l = []
  · simp [hl]
  · have hsum : (l.map (fun v => k * v)).sum = k * l.sum := by
      simpa using List.sum_map_mul_left l (fun v => v) k
    rw [if_neg (by simpa using hl), if_neg hl, hsum, List.length_map, mul_div_assoc]

theorem sum_eq_zero_of_mean {l : List ℝ} (hl : l ≠ []) (h : mean l = 0) : l.sum = 0 := by
  unfold mean at h
  rw [if_neg hl, div_eq_zero_iff] at h
  rcases h with h | h
  · exact h
  · exact absurd h (by exact_mod_cast (List.length_pos_of_ne_nil hl).ne')

/-- C2: normalization is invariant under any translation `t` and any
positive uniform scaling `s` of the input point set (exactly, over the
reals). -/
theorem normalizePoints_invariance (P : List Point) (s : ℝ) (t : Point) (hs : 0 < s) :
    normalizePoints (P.map (fun p => ⟨s * p.x + t.x, s * p.y + t.y⟩)) = normalizePoints P := by
  by_cases h0 : P.length = 0
  · rw [List.length_eq_zero] at h0
    subst h0
    simp
  by_cases h1 : P.length = 1
  · obtain ⟨p, rfl⟩ := List.length_eq_one.1 h1
    simp [normalizePoints]
  have hP : P ≠ [] := fun h => h0 (by simp [h])
  simp only [normalizePoints, List.length_map, if_neg h0, if_neg h1]
  have hmx : mean ((P.map (fun p => (⟨s * p.x + t.x, s * p.y + t.y⟩ : Point))).map (fun p => p.x)) =
      s * mean (P.map (fun p => p.x)) + t.x := by
    rw [List.map_map]
    have : ((fun p : Point => p.x) ∘ fun p : Point => (⟨s * p.x + t.x, s * p.y + t.y⟩ : Point)) =
        fun p : Point => s * p.x + t.x := rfl
    rw [this, show (fun p : Point => s * p.x + t.x) = (fun v => s * v + t.x) ∘ (fun p : Point => p.x) from rfl,
      ← List.map_map]
    exact mean_affine (by simpa using hP) s t.x
  have hmy : mean ((P.map (fun p => (⟨s * p.x + t.x, s * p.y + t.y⟩ : Point))).map (fun p => p.y)) =
      s * mean (P.map (fun p => p.y)) + t.y := by
    rw [List.map_map]
    have : ((fun p : Point => p.y) ∘ fun p : Point => (⟨s * p.x + t.x, s * p.y + t.y⟩ : Point)) =
        fun p : Point => s * p.y + t.y := rfl
    rw [this, show (fun p : Point => s * p.y + t.y) = (fun v => s * v + t.y) ∘ (fun p : Point => p.y) from rfl,
      ← List.map_map]
    exact mean_affine (by simpa using hP) s t.y
  simp only [hmx, hmy]
  set cx := mean (P.map (fun p => p.x)) with hcx
  set cy := mean (P.map (fun p => p.y)) with hcy
  have hcent : (P.map (fun p => (⟨s * p.x + t.x, s * p.y + t.y⟩ : Point))).map
        (fun p => (⟨p.x - (s * cx + t.x), p.y - (s * cy + t.y)⟩ : Point)) =
      (P.map (fun p => (⟨p.x - cx, p.y - cy⟩ : Point))).map
        (fun p => (⟨s * p.x, s * p.y⟩ : Point)) := by
    rw [List.map_map, List.map_map]
    refine List.map_congr_left ?_
    intro p _
    refine Point.ext ?_ ?_ <;> dsimp <;> ring
  simp only [hcent]
  have hsq : ∀ L : List Point, (L.map (fun p => (⟨s * p.x, s * p.y⟩ : Point))).map
        (fun p => p.x * p.x + p.y * p.y) =
      (L.map (fun p => p.x * p.x + p.y * p.y)).map (fun v => s * s * v) := by
    intro L
    rw [List.map_map, List.map_map]
    refine List.map_congr_left ?_
    intro p _
    dsimp
    ring
  set centered := P.map (fun p => (⟨p.x - cx, p.y - cy⟩ : Point)) with hcentered
  simp only [hsq centered, mean_smul]
  have hrms : Real.sqrt (s * s * mean (centered.map (fun p => p.x * p.x + p.y * p.y))) =
      s * Real.sqrt (mean (centered.map (fun p => p.x * p.x + p.y * p.y))) := by
    rw [Real.sqrt_mul (mul_self_nonneg s), Real.sqrt_mul_self hs.le]
  simp only [hrms]
  set msq := mean (centered.map (fun p => p.x * p.x + p.y * p.y)) with hmsq
  by_cases hr : Real.sqrt msq = 0
  · rw [if_pos (by rw [hr, mul_zero]), if_pos hr]
    have hnnsq : ∀ x ∈ centered.map (fun p => p.x * p.x + p.y * p.y), 0 ≤ x := by
      intro x hx
      obtain ⟨p, _, rfl⟩ := List.mem_map.1 hx
      exact add_nonneg (mul_self_nonneg p.x) (mul_self_nonneg p.y)
    have hmsq0 : msq = 0 := by
      have hnn : 0 ≤ msq := mean_nonneg hnnsq
      exact le_antisymm (Real.sqrt_eq_zero'.1 hr) hnn
    have hne : centered.map (fun p => p.x * p.x + p.y * p.y) ≠ [] := by
      rw [hcentered, List.map_map]
      intro hcontra
      exact hP (List.map_eq_nil_iff.mp hcontra)
    have hsum0 : (centered.map (fun p => p.x * p.x + p.y * p.y)).sum = 0 :=
      sum_eq_zero_of_mean hne hmsq0
    have hallzero : ∀ p ∈ centered, p = (⟨0, 0⟩ : Point) := by
      intro p hp
      have hmem : p.x * p.x + p.y * p.y ∈ centered.map (fun p => p.x * p.x + p.y * p.y) :=
        List.mem_map_of_mem _ hp
      have hle : p.x * p.x + p.y * p.y ≤ 0 := by
        rw [← hsum0]
        exact List.single_le_sum hnnsq _ hmem
      have hxx : p.x * p.x + p.y * p.y = 0 :=
        le_antisymm hle (add_nonneg (mul_self_nonneg p.x) (mul_self_nonneg p.y))
      have hx0 : p.x = 0 := by nlinarith [mul_self_nonneg p.x, mul_self_nonneg p.y]
      have hy0 : p.y = 0 := by nlinarith [mul_self_nonneg p.x, mul_self_nonneg p.y]
      exact Point.ext hx0 hy0
    refine List.map_congr_left ?_ |>.trans (List.map_id centered)
    intro p hp
    rw [hallzero p hp]
    refine Point.ext ?_ ?_ <;> dsimp <;> ring
  · rw [if_neg (mul_ne_zero hs.ne' hr), if_neg hr]
    rw [List.map_map]
    refine List.map_congr_left ?_
    intro p _
    refine Point.ext ?_ ?_ <;> dsimp <;>
      rw [mul_div_mul_left _ _ hs.ne']

/-- C2 witness: a concrete point set, translation and positive scale. -/
theorem normalizePoints_invariance_witness :
    (0 : ℝ) < 2 ∧
    normalizePoints [⟨3, 4⟩, ⟨5, 4⟩] = normalizePoints [⟨0, 0⟩, ⟨1, 0⟩] := by
  refine ⟨by norm_num, ?_⟩
  have h := normalizePoints_invariance [⟨0, 0⟩, ⟨1, 0⟩] 2 ⟨3, 4⟩ (by norm_num)
  have hlist : (([⟨0, 0⟩, ⟨1, 0⟩] : List Point).map
      (fun p => (⟨2 * p.x + (⟨3, 4⟩ : Point).x, 2 * p.y + (⟨3, 4⟩ : Point).y⟩ : Point))) =
      ([⟨3, 4⟩, ⟨5, 4⟩] : List Point) := by
    simp only [List.map_cons, List.map_nil]
    norm_num
  rw [hlist] at h
  exact h

/-- C7 counterexample: with the (unvalidated) weight pair `(2, 2)` and both
similarities equal to `100`, `combinedSimilarity` returns `400`, which is
outside the range `0..100` the claim asserts for every caller-supplied
weight pair. -/
theorem combinedSimilarity_range_cex :
    combinedSimilarity 100 100 ⟨2, 2⟩ = 400 ∧
    ¬(combinedSimilarity 100 100 ⟨2, 2⟩ ≤ 100) := by
  have h : combinedSimilarity 100 100 ⟨2, 2⟩ = 400 := by
    unfold combinedSimilarity
    have e : ((⟨2, 2⟩ : Weights).mhd * 100 + (⟨2, 2⟩ : Weights).order * 100 : ℝ) =
        ((400 : ℤ) : ℝ) := by norm_num
    rw [e, round_intCast]
  exact ⟨h, by rw [h]; norm_num⟩

/-- C7 (amended): `combinedSimilarity` always returns
`round(w1·setSimilarity + w2·orderSimilarity)`; the result is an integer in
`0..100` when the similarities lie in `0..100`, the weights are
nonnegative and the weights sum to at most 1 (as the default weights do) —
not for arbitrary unvalidated weights. -/
theorem combinedSimilarity_amended (s o : ℝ) (w : Weights) :
    combinedSimilarity s o w = round (w.mhd * s + w.order * o) ∧
    (0 ≤ s → s ≤ 100 → 0 ≤ o → o ≤ 100 →
     0 ≤ w.mhd → 0 ≤ w.order → w.mhd + w.order ≤ 1 →
      0 ≤ combinedSimilarity s o w ∧ combinedSimilarity s o w ≤ 100) := by
  refine ⟨rfl, ?_⟩
  intro hs hs' ho ho' hw1 hw2 hsum
  unfold combinedSimilarity
  constructor
  · rw [round_eq, Int.le_floor]
    push_cast
    nlinarith
  · rw [round_eq]
    have hub : w.mhd * s + w.order * o + 1 / 2 < ((101 : ℤ) : ℝ) := by
      push_cast
      nlinarith
    have := Int.floor_lt.2 hub
    omega

/-- C7 witness: the amended range bound at concrete similarities `50, 50`
and the default weights. -/
theorem combinedSimilarity_amended_witness :
    ((0 : ℝ) ≤ 50 ∧ (50 : ℝ) ≤ 100 ∧
     (0 : ℝ) ≤ (⟨0.6, 0.4⟩ : Weights).mhd ∧ (0 : ℝ) ≤ (⟨0.6, 0.4⟩ : Weights).order ∧
     (⟨0.6, 0.4⟩ : Weights).mhd + (⟨0.6, 0.4⟩ : Weights).order ≤ 1) ∧
    0 ≤ combinedSimilarity 50 50 ⟨0.6, 0.4⟩ ∧ combinedSimilarity 50 50 ⟨0.6, 0.4⟩ ≤ 100 := by
  refine ⟨by norm_num, ?_⟩
  exact (combinedSimilarity_amended 50 50 ⟨0.6, 0.4⟩).2 (by norm_num) (by norm_num)
    (by norm_num) (by norm_num) (by norm_num) (by norm_num) (by norm_num)

/-! DTW: the imperative table construction computes the reference table. -/

theorem dtwRowAux_spec (A B : List ℝ) (i : ℕ) :
    ∀ (n j0 : ℕ), j0 + n = B.length →
      dtwRowAux (A.getD i 0) (dtwTable A B i j0) (dtwTable A B (i + 1) j0)
        ((List.range' (j0 + 1) n).map (dtwTable A B i)) (B.drop j0) =
      (List.range' (j0 + 1) n).map (dtwTable A B (i + 1)) := by
  intro n
  induction n with
  | zero =>
    intro j0 h
    rw [List.drop_eq_nil_of_le (by omega)]
    simp [dtwRowAux]
  | succ n ih =>
    intro j0 h
    have hj0 : j0 < B.length := by omega
    rw [List.drop_eq_getElem_cons hj0]
    simp only [List.range'_succ, List.map_cons]
    simp only [dtwRowAux]
    have hv : ENNReal.ofReal |A.getD i 0 - B[j0]| +
        min (dtwTable A B i (j0 + 1))
          (min (dtwTable A B (i + 1) j0) (dtwTable A B i j0)) =
        dtwTable A B (i + 1) (j0 + 1) := by
      conv_rhs => rw [dtwTable]
      rw [List.getD_eq_getElem B 0 hj0]
    rw [hv]
    congr 1
    exact ih (j0 + 1) (by omega)

theorem dtwNextRow_step (A B : List ℝ) (i : ℕ) :
    dtwNextRow (A.getD i 0) ((List.range' 0 (B.length + 1)).map (dtwTable A B i)) B =
    (List.range' 0 (B.length + 1)).map (dtwTable A B (i + 1)) := by
  simp only [List.range'_succ, List.map_cons]
  simp only [dtwNextRow]
  have h0 : dtwTable A B (i + 1) 0 = ⊤ := by simp [dtwTable]
  rw [h0]
  congr 1
  rw [show (⊤ : ℝ≥0∞) = dtwTable A B (i + 1) 0 from h0.symm, show B = B.drop 0 from (List.drop_zero B).symm]
  exact dtwRowAux_spec A B i B.length 0 (by omega)

theorem dtwRow0_eq (A B : List ℝ) :
    (List.range' 0 (B.length + 1)).map (dtwTable A B 0) = dtwRow0 B.length := by
  simp only [List.range'_succ, List.map_cons, dtwRow0]
  congr 1
  · simp [dtwTable]
  · refine List.eq_replicate_iff.mpr ⟨by simp, ?_⟩
    intro b hb
    obtain ⟨j, hj, rfl⟩ := List.mem_map.1 hb
    obtain ⟨idx, _, rfl⟩ := List.mem_range'.1 hj
    have he : 0 + 1 + 1 * idx = idx + 1 := by omega
    rw [he]
    simp [dtwTable]

theorem dtwLastRow_eq (A B : List ℝ) :
    dtwLastRow A B = (List.range' 0 (B.length + 1)).map (dtwTable A B A.length) := by
  have main : ∀ (n k : ℕ), A.length - k = n → k ≤ A.length →
      (A.drop k).foldl (fun row a => dtwNextRow a row B)
        ((List.range' 0 (B.length + 1)).map (dtwTable A B k)) =
      (List.range' 0 (B.length + 1)).map (dtwTable A B A.length) := by
    intro n
    induction n with
    | zero =>
      intro k hn hk
      have hEq : k = A.length := by omega
      subst hEq
      rw [List.drop_eq_nil_of_le le_rfl]
      rfl
    | succ n ih =>
      intro k hn hk
      have hklt : k < A.length := by omega
      rw [List.drop_eq_getElem_cons hklt]
      simp only [List.foldl_cons]
      rw [show A[k] = A.getD k 0 from (List.getD_eq_getElem A 0 hklt).symm,
        dtwNextRow_step]
      exact ih (k + 1) (by omega) (by omega)
  have h0 := main A.length 0 (by omega) (by omega)
  rw [List.drop_zero] at h0
  unfold dtwLastRow
  rw [← dtwRow0_eq A B]
  exact h0

theorem dtw_eq_spec (seqA seqB : List ℝ) : dtwDistance seqA seqB = dtwSpec seqA seqB := by
  unfold dtwDistance dtwSpec
  split
  · rfl
  · rw [dtwLastRow_eq]
    congr 1
    rw [List.getD_eq_getElem?_getD, List.getElem?_map, ← List.range_eq_range',
      List.getElem?_range (by omega)]
    rfl

/-- C4: `dtwDistance` returns `+∞` when either sequence is empty, and on
non-empty sequences of lengths `n`, `m` it equals the reference
dynamic-programming definition — base case `table[0][0] = 0`, recurrence
`cost(i,j) = |seqA[i−1] − seqB[j−1]| + min(table[i−1][j], table[i][j−1], table[i−1][j−1])`,
result `table[n][m] / max(n, m)` (`dtwSpec`/`dtwTable`). -/
theorem dtwDistance_matches_reference :
    (∀ seqB : List ℝ, dtwDistance [] seqB = ⊤) ∧
    (∀ seqA : List ℝ, dtwDistance seqA [] = ⊤) ∧
    ∀ seqA seqB : List ℝ, dtwDistance seqA seqB = dtwSpec seqA seqB :=
  ⟨fun seqB => by simp [dtwDistance], fun seqA => by simp [dtwDistance],
   fun seqA seqB => dtw_eq_spec seqA seqB⟩

theorem simConvert (d : ℝ≥0∞) :
    (if ENNReal.ofReal 1.0 ≤ d then (0 : ℤ) else round ((1 - d.toReal / 1.0) * 100)) =
    round ((100 * ((1 : ℝ≥0∞) - d)).toReal) := by
  have hone : ENNReal.ofReal 1.0 = 1 := by
    norm_num
  by_cases h : ENNReal.ofReal 1.0 ≤ d
  · rw [if_pos h]
    have h1 : (1 : ℝ≥0∞) ≤ d := hone ▸ h
    rw [tsub_eq_zero_of_le h1, mul_zero, ENNReal.zero_toReal, round_zero]
  · rw [if_neg h]
    push_neg at h
    have hd1 : d < 1 := hone ▸ h
    have hdtop : d ≠ ⊤ := ne_top_of_lt hd1
    rw [ENNReal.toReal_mul, ENNReal.toReal_sub_of_le hd1.le (by simp), ENNReal.one_toReal]
    congr 1
    have h100 : ((100 : ℝ≥0∞)).toReal = (100 : ℝ) := by simp
    rw [h100]
    norm_num
    ring

/-- C5: `relativeOrderSimilarity` returns 0 when either input is empty and
100 when both inputs are single points; otherwise it equals the
specification formula `orderSimilaritySpec` (sort by `y`, take `x`
sequences, min-max normalize, DTW, `round(100 · max(0, 1 − distance))`). -/
theorem relativeOrderSimilarity_matches_spec :
    (∀ B : List Point, relativeOrderSimilarity [] B = 0) ∧
    (∀ A : List Point, relativeOrderSimilarity A [] = 0) ∧
    (∀ p q : Point, relativeOrderSimilarity [p] [q] = 100) ∧
    ∀ A B : List Point, relativeOrderSimilarity A B = orderSimilaritySpec A B := by
  refine ⟨fun B => by simp [relativeOrderSimilarity],
    fun A => by simp [relativeOrderSimilarity],
    fun p q => by simp [relativeOrderSimilarity], ?_⟩
  intro A B
  unfold relativeOrderSimilarity orderSimilaritySpec
  by_cases h1 : A.length = 0 ∨ B.length = 0
  · rw [if_pos h1, if_pos h1]
  rw [if_neg h1, if_neg h1]
  by_cases h2 : A.length = 1 ∧ B.length = 1
  · rw [if_pos h2, if_pos h2]
  rw [if_neg h2, if_neg h2]
  exact simConvert
    (dtwDistance (minmaxNormalize ((sortByY A).map (fun p => p.x)))
      (minmaxNormalize ((sortByY B).map (fun p => p.x))))

theorem distance_same_y (a b y : ℝ) : distance ⟨a, y⟩ ⟨b, y⟩ = |a - b| := by
  unfold distance
  dsimp
  rw [← Real.sqrt_sq_eq_abs]
  congr 1
  ring

theorem sum_set_of_lt : ∀ (l : List ℝ) (i : ℕ), i < l.length → ∀ x : ℝ,
    (l.set i x).sum = l.sum - l.getD i 0 + x := by
  intro l
  induction l with
  | nil => intro i hi; simp at hi
  | cons v vs ih =>
    intro i hi x
    cases i with
    | zero => simp [List.set]; ring
    | succ j =>
      have hj : j < vs.length := by simpa using hi
      simp only [List.set, List.sum_cons, ih j hj x, List.getD_cons_succ]
      ring

/-- C6 counterexample: with `A = [(0,0), (10,0)]`, moving the single point
of `B` from `(-2,0)` (nearest-neighbour distance 2) to `(5,0)`
(nearest-neighbour distance 5) — strictly farther from its nearest
neighbour in `A` — strictly decreases `setDistance(A, B)` from 7 to 5,
refuting the claim that such a move never decreases the distance. -/
theorem mhd_move_farther_cex :
    minOver (fun a => distance a (⟨-2, 0⟩ : Point)) [⟨0, 0⟩, ⟨10, 0⟩] <
      minOver (fun a => distance a (⟨5, 0⟩ : Point)) [⟨0, 0⟩, ⟨10, 0⟩] ∧
    modifiedHausdorffDistance [⟨0, 0⟩, ⟨10, 0⟩] [⟨5, 0⟩] <
      modifiedHausdorffDistance [⟨0, 0⟩, ⟨10, 0⟩] [⟨-2, 0⟩] := by
  have d1 : distance ⟨0, 0⟩ (⟨-2, 0⟩ : Point) = 2 := by
    rw [distance_same_y, show (0 : ℝ) - (-2) = 2 by norm_num,
      abs_of_nonneg (by norm_num : (0 : ℝ) ≤ 2)]
  have d2 : distance ⟨10, 0⟩ (⟨-2, 0⟩ : Point) = 12 := by
    rw [distance_same_y, show (10 : ℝ) - (-2) = 12 by norm_num,
      abs_of_nonneg (by norm_num : (0 : ℝ) ≤ 12)]
  have d3 : distance ⟨0, 0⟩ (⟨5, 0⟩ : Point) = 5 := by
    rw [distance_same_y, show (0 : ℝ) - 5 = -5 by norm_num, abs_neg,
      abs_of_nonneg (by norm_num : (0 : ℝ) ≤ 5)]
  have d4 : distance ⟨10, 0⟩ (⟨5, 0⟩ : Point) = 5 := by
    rw [distance_same_y, show (10 : ℝ) - 5 = 5 by norm_num,
      abs_of_nonneg (by norm_num : (0 : ℝ) ≤ 5)]
  have m1 : minOver (fun a => distance a (⟨-2, 0⟩ : Point)) [⟨0, 0⟩, ⟨10, 0⟩] = 2 := by
    simp only [minOver, List.foldl_cons, List.foldl_nil, d1, d2]
    rw [min_eq_left (by norm_num)]
  have m2 : minOver (fun a => distance a (⟨5, 0⟩ : Point)) [⟨0, 0⟩, ⟨10, 0⟩] = 5 := by
    simp only [minOver, List.foldl_cons, List.foldl_nil, d3, d4]
    rw [min_eq_left (by norm_num)]
  refine ⟨by rw [m1, m2]; norm_num, ?_⟩
  have hB : modifiedHausdorffDistance [⟨0, 0⟩, ⟨10, 0⟩] [⟨-2, 0⟩] = ENNReal.ofReal 7 := by
    unfold modifiedHausdorffDistance
    rw [if_neg (by simp)]
    simp only [List.map_cons, List.map_nil, m1]
    have hf : mean [minOver (fun b => distance ⟨0, 0⟩ b) [(⟨-2, 0⟩ : Point)],
        minOver (fun b => distance ⟨10, 0⟩ b) [(⟨-2, 0⟩ : Point)]] = 7 := by
      simp only [minOver, List.foldl_nil, d1, d2]
      simp [mean]
      norm_num
    rw [hf]
    have hr : mean [(2 : ℝ)] = 2 := by simp [mean]
    rw [hr, max_eq_left (by norm_num)]
  have hB' : modifiedHausdorffDistance [⟨0, 0⟩, ⟨10, 0⟩] [⟨5, 0⟩] = ENNReal.ofReal 5 := by
    unfold modifiedHausdorffDistance
    rw [if_neg (by simp)]
    simp only [List.map_cons, List.map_nil, m2]
    have hf : mean [minOver (fun b => distance ⟨0, 0⟩ b) [(⟨5, 0⟩ : Point)],
        minOver (fun b => distance ⟨10, 0⟩ b) [(⟨5, 0⟩ : Point)]] = 5 := by
      simp only [minOver, List.foldl_nil, d3, d4]
      simp [mean]
    rw [hf]
    have hr : mean [(5 : ℝ)] = 5 := by simp [mean]
    rw [hr, max_self]
  rw [hB, hB']
  exact (ENNReal.ofReal_lt_ofReal_iff (by norm_num)).2 (by norm_num)

/-- C6 (amended): moving a single point of `B` strictly farther from its
nearest neighbour in `A` never decreases the reverse component of
`setDistance(A, B)` — the mean nearest-neighbour distance from `B` to `A`;
the overall `setDistance` (the max of the two directed means) can
nevertheless decrease, as the counterexample shows. -/
theorem reverse_mean_move_farther_mono (A B : List Point) (i : ℕ) (b' : Point)
    (hi : i < B.length)
    (hfar : minOver (fun a => distance a (B.get ⟨i, hi⟩)) A <
      minOver (fun a => distance a b') A) :
    mean (B.map (fun b => minOver (fun a => distance a b) A)) ≤
    mean ((B.set i b').map (fun b => minOver (fun a => distance a b) A)) := by
  have hBne : B ≠ [] := List.ne_nil_of_length_pos (by omega)
  have hmapne : B.map (fun b => minOver (fun a => distance a b) A) ≠ [] := by
    simpa using hBne
  have hmapne' : (B.set i b').map (fun b => minOver (fun a => distance a b) A) ≠ [] := by
    have hset : B.set i b' ≠ [] :=
      List.ne_nil_of_length_pos (by rw [List.length_set]; omega)
    simpa using hset
  unfold mean
  rw [if_neg hmapne, if_neg hmapne']
  rw [List.map_set]
  have hlen : i < (B.map (fun b => minOver (fun a => distance a b) A)).length := by
    simpa using hi
  rw [sum_set_of_lt _ i hlen, List.length_set, List.length_map]
  have hget : (B.map (fun b => minOver (fun a => distance a b) A)).getD i 0 =
      minOver (fun a => distance a (B.get ⟨i, hi⟩)) A := by
    rw [List.getD_eq_getElem _ _ hlen, List.getElem_map]
    rfl
  rw [hget]
  have hlenpos : (0 : ℝ) < (B.length : ℝ) := by
    exact_mod_cast Nat.pos_of_ne_zero (by omega)
  have hnum : (B.map (fun b => minOver (fun a => distance a b) A)).sum ≤
      (B.map (fun b => minOver (fun a => distance a b) A)).sum -
        minOver (fun a => distance a (B.get ⟨i, hi⟩)) A +
        minOver (fun a => distance a b') A := by
    linarith [hfar.le]
  exact div_le_div_of_nonneg_right hnum hlenpos.le

/-- C6 witness: a concrete instance of the amended monotonicity. -/
theorem reverse_mean_move_farther_mono_witness :
    (0 : ℕ) < ([⟨1, 0⟩] : List Point).length ∧
    minOver (fun a => distance a (([⟨1, 0⟩] : List Point).get ⟨0, by norm_num⟩)) [⟨0, 0⟩] <
      minOver (fun a => distance a (⟨2, 0⟩ : Point)) [⟨0, 0⟩] ∧
    mean (([⟨1, 0⟩] : List Point).map (fun b => minOver (fun a => distance a b) [⟨0, 0⟩])) ≤
      mean ((([⟨1, 0⟩] : List Point).set 0 ⟨2, 0⟩).map
        (fun b => minOver (fun a => distance a b) [⟨0, 0⟩])) := by
  have hfar : minOver (fun a => distance a (([⟨1, 0⟩] : List Point).get ⟨0, by norm_num⟩)) [⟨0, 0⟩] <
      minOver (fun a => distance a (⟨2, 0⟩ : Point)) [⟨0, 0⟩] := by
    have hget0 : (([⟨1, 0⟩] : List Point).get ⟨0, by norm_num⟩) = (⟨1, 0⟩ : Point) := rfl
    rw [hget0]
    simp only [minOver, List.foldl_nil]
    rw [distance_same_y, distance_same_y]
    rw [show (0 : ℝ) - 1 = -1 by norm_num, show (0 : ℝ) - 2 = -2 by norm_num, abs_neg, abs_neg,
      abs_of_nonneg (by norm_num : (0 : ℝ) ≤ 1), abs_of_nonneg (by norm_num : (0 : ℝ) ≤ 2)]
    norm_num
  exact ⟨by norm_num, hfar,
    reverse_mean_move_farther_mono [⟨0, 0⟩] [⟨1, 0⟩] 0 ⟨2, 0⟩ (by norm_num) hfar⟩

/-! Search/ranking: stable-sort facts and the best-image fold. -/

instance : IsTotal SearchResult resultLE :=
  ⟨fun a b => le_total b.similarity a.similarity⟩

instance : IsTrans SearchResult resultLE :=
  ⟨fun _ _ _ hab hbc => le_trans hbc hab⟩

theorem filter_orderedInsert_sim (s : ℤ) (a : SearchResult) (l : List SearchResult) :
    (List.orderedInsert resultLE a l).filter (fun x => x.similarity == s) =
    if a.similarity == s then a :: l.filter (fun x => x.similarity == s)
    else l.filter (fun x => x.similarity == s) := by
  induction l with
  | nil =>
    cases hpa : (a.similarity == s) <;>
      simp [List.orderedInsert, List.filter_cons, hpa]
  | cons b t ih =>
    by_cases hab : resultLE a b
    · rw [show List.orderedInsert resultLE a (b :: t) =
        if resultLE a b then a :: b :: t else b :: List.orderedInsert resultLE a t from rfl,
        if_pos hab]
      cases hpa : (a.similarity == s) <;> simp [List.filter_cons, hpa]
    · rw [show List.orderedInsert resultLE a (b :: t) =
        if resultLE a b then a :: b :: t else b :: List.orderedInsert resultLE a t from rfl,
        if_neg hab]
      cases hpa : (a.similarity == s)
      · simp only [List.filter_cons, ih, hpa, if_false, Bool.false_eq_true]
      · have hlt : a.similarity < b.similarity := by
          have := not_le.1 (fun h => hab h)
          exact this
        have hpb : (b.similarity == s) = false := by
          have has : a.similarity = s := by simpa using hpa
          simp only [beq_eq_false_iff_ne, ne_eq]
          omega
        simp only [List.filter_cons, ih, hpa, hpb, if_true, Bool.false_eq_true, if_false]

theorem filter_insertionSort_sim (s : ℤ) (l : List SearchResult) :
    (List.insertionSort resultLE l).filter (fun x => x.similarity == s) =
    l.filter (fun x => x.similarity == s) := by
  induction l with
  | nil => rfl
  | cons a t ih =>
    rw [show List.insertionSort resultLE (a :: t) =
      List.orderedInsert resultLE a (List.insertionSort resultLE t) from rfl,
      filter_orderedInsert_sim]
    cases hpa : (a.similarity == s) <;> simp [List.filter_cons, hpa, ih]

theorem foldBest_fst (f : LabeledImage → ℤ) :
    ∀ (l : List LabeledImage) (v : ℤ) (s : String),
      (l.foldl (fun acc image => if acc.1 < f image then (f image, image.id) else acc) (v, s)).1 =
      l.foldl (fun m image => max m (f image)) v := by
  intro l
  induction l with
  | nil => intro v s; rfl
  | cons i t ih =>
    intro v s
    simp only [List.foldl_cons]
    by_cases h : v < f i
    · rw [if_pos h, ih, max_eq_right h.le]
    · rw [if_neg h, ih, max_eq_left (not_lt.1 h)]

theorem init_le_foldl_max (f : LabeledImage → ℤ) :
    ∀ (l : List LabeledImage) (v : ℤ), v ≤ l.foldl (fun m image => max m (f image)) v := by
  intro l
  induction l with
  | nil => intro v; exact le_rfl
  | cons i t ih =>
    intro v
    simp only [List.foldl_cons]
    exact le_trans (le_max_left v (f i)) (ih _)

theorem foldl_max_const (f : LabeledImage → ℤ) :
    ∀ (l : List LabeledImage) (v : ℤ), (∀ i ∈ l, f i ≤ v) →
      l.foldl (fun m image => max m (f image)) v = v := by
  intro l
  induction l with
  | nil => intro v _; rfl
  | cons i t ih =>
    intro v h
    simp only [List.foldl_cons]
    rw [max_eq_left (h i (List.mem_cons_self i t)),
      ih v (fun j hj => h j (List.mem_cons_of_mem i hj))]

theorem foldl_max_attained (f : LabeledImage → ℤ) :
    ∀ (l : List LabeledImage) (v : ℤ),
      l.foldl (fun m image => max m (f image)) v = v ∨
      ∃ j ∈ l, l.foldl (fun m image => max m (f image)) v = f j := by
  intro l
  induction l with
  | nil => intro v; exact Or.inl rfl
  | cons i t ih =>
    intro v
    simp only [List.foldl_cons]
    rcases ih (max v (f i)) with hcase | ⟨j, hj, he⟩
    · by_cases hvi : v ≤ f i
      · exact Or.inr ⟨i, List.mem_cons_self i t, by rw [hcase, max_eq_right hvi]⟩
      · exact Or.inl (by rw [hcase, max_eq_left (le_of_not_le hvi)])
    · exact Or.inr ⟨j, List.mem_cons_of_mem i hj, he⟩

theorem foldBest_snd (f : LabeledImage → ℤ) :
    ∀ (l : List LabeledImage) (v : ℤ) (s : String),
      (l.foldl (fun acc image => if acc.1 < f image then (f image, image.id) else acc) (v, s)).2 =
      (if v < l.foldl (fun m image => max m (f image)) v
       then ((l.filter (fun image =>
          f image == l.foldl (fun m i => max m (f i)) v)).head?.map (fun image => image.id)).getD s
       else s) := by
  intro l
  induction l with
  | nil =>
    intro v s
    simp
  | cons i t ih =>
    intro v s
    simp only [List.foldl_cons]
    by_cases h : v < f i
    · rw [if_pos h, max_eq_right h.le, ih]
      have hM : f i ≤ t.foldl (fun m j => max m (f j)) (f i) := init_le_foldl_max f t (f i)
      have hvM : v < t.foldl (fun m j => max m (f j)) (f i) := lt_of_lt_of_le h hM
      rw [if_pos hvM]
      by_cases hfi : f i = t.foldl (fun m j => max m (f j)) (f i)
      · have hpi : (f i == t.foldl (fun m j => max m (f j)) (f i)) = true := by
          simpa using hfi
        rw [if_neg (by omega), List.filter_cons, if_pos hpi, List.head?_cons]
        rfl
      · have hlt : f i < t.foldl (fun m j => max m (f j)) (f i) := lt_of_le_of_ne hM hfi
        have hpi : (f i == t.foldl (fun m j => max m (f j)) (f i)) = false := by
          simpa using hfi
        rw [if_pos hlt, List.filter_cons, if_neg (by simp [hpi])]
        rcases foldl_max_attained f t (f i) with hcase | ⟨j, hj, he⟩
        · exact absurd hcase.symm hfi
        · have hjmem : j ∈ t.filter (fun image =>
              f image == t.foldl (fun m i => max m (f i)) (f i)) := by
            rw [List.mem_filter]
            exact ⟨hj, by simpa using he.symm⟩
          have hne : t.filter (fun image =>
              f image == t.foldl (fun m i => max m (f i)) (f i)) ≠ [] :=
            List.ne_nil_of_mem hjmem
          obtain ⟨w, ws, hw⟩ := List.exists_cons_of_ne_nil hne
          rw [hw]
          simp
    · rw [if_neg h, max_eq_left (not_lt.1 h), ih]
      by_cases hvM : v < t.foldl (fun m j => max m (f j)) v
      · have hfi : f i < t.foldl (fun m j => max m (f j)) v :=
          lt_of_le_of_lt (not_lt.1 h) hvM
        have hpi : (f i == t.foldl (fun m j => max m (f j)) v) = false := by
          simp only [beq_eq_false_iff_ne, ne_eq]
          omega
        rw [if_pos hvM, if_pos hvM, List.filter_cons, if_neg (by simp [hpi])]
      · rw [if_neg hvM, if_neg hvM]

theorem scoreRoute_route (nq qp : List Point) (opts : ResolvedOptions) (route : Route) :
    (scoreRoute nq qp opts route).route = route := rfl

theorem scoreRoute_similarity (nq qp : List Point) (opts : ResolvedOptions) (route : Route) :
    (scoreRoute nq qp opts route).similarity =
    route.images.foldl (fun m image => max m (imageSimilarity nq qp opts image)) 0 := by
  unfold scoreRoute
  exact foldBest_fst (imageSimilarity nq qp opts) route.images 0 ""

theorem scoreRoute_matchedImageId (nq qp : List Point) (opts : ResolvedOptions) (route : Route) :
    (scoreRoute nq qp opts route).matchedImageId =
    (if 0 < route.images.foldl (fun m image => max m (imageSimilarity nq qp opts image)) 0
     then ((route.images.filter (fun image => imageSimilarity nq qp opts image ==
        route.images.foldl (fun m i => max m (imageSimilarity nq qp opts i)) 0)).head?.map
        (fun image => image.id)).getD ""
     else "") := by
  unfold scoreRoute
  exact foldBest_snd (imageSimilarity nq qp opts) route.images 0 ""

/-! Concrete-evaluation helpers for the end-to-end counterexamples. -/

theorem resolve_emptyOptions : resolveOptions emptyOptions = ⟨0.6, 0.6, 0.4⟩ := rfl

theorem mhd_single_zero : modifiedHausdorffDistance [⟨0, 0⟩] [⟨0, 0⟩] = 0 := by
  simp [modifiedHausdorffDistance, minOver, mean, distance_self]

theorem mhd_nil_nil : modifiedHausdorffDistance [] [] = ⊤ := by
  simp [modifiedHausdorffDistance]

theorem dts_top (m : ℝ) : distanceToSimilarity ⊤ m = 0 := by
  rw [distanceToSimilarity, if_pos le_top]

theorem dts_zero : distanceToSimilarity 0 0.6 = 100 := by
  rw [distanceToSimilarity, if_neg]
  · have harg : (max 0 (1 - (0 : ℝ≥0∞).toReal / 0.6) * 100 : ℝ) = ((100 : ℤ) : ℝ) := by
      norm_num
    rw [harg, round_intCast]
  · simp only [le_zero_iff, ENNReal.ofReal_eq_zero, not_le]
    norm_num

theorem relOrder_single (p q : Point) : relativeOrderSimilarity [p] [q] = 100 := by
  simp [relativeOrderSimilarity]

theorem relOrder_nil_nil : relativeOrderSimilarity [] [] = 0 := by
  simp [relativeOrderSimilarity]

/-- C1 counterexample: with the caller-supplied (unvalidated) weights
`mhdWeight = -1, orderWeight = 0`, the single image of the single route has
combined score `-100` — the maximum combined score over that route's
images — yet `searchRoutes` reports the route with similarity `0`.  The
engine scores each route with the maximum of `0` and the image scores, not
with the maximum combined score itself. -/
theorem searchRoutes_best_score_cex :
    (searchRoutes [⟨0, 0⟩] [⟨"r1", "route", [⟨"i1", "f1", [⟨0, 0⟩], [⟨0, 0⟩]⟩], "t"⟩] 10
        ⟨none, some (-1), some 0⟩).map (fun r => r.similarity) = [0] ∧
    (⟨"r1", "route", [⟨"i1", "f1", [⟨0, 0⟩], [⟨0, 0⟩]⟩], "t"⟩ : Route).images.map
      (imageSimilarity (normalizePoints [⟨0, 0⟩]) [⟨0, 0⟩]
        (resolveOptions ⟨none, some (-1), some 0⟩)) = [-100] := by
  have hresolved : resolveOptions ⟨none, some (-1), some 0⟩ =
      (⟨0.6, -1, 0⟩ : ResolvedOptions) := rfl
  have hnq : normalizePoints [⟨0, 0⟩] = [⟨0, 0⟩] := by simp [normalizePoints]
  have himg : imageSimilarity [⟨0, 0⟩] [⟨0, 0⟩] ⟨0.6, -1, 0⟩
      ⟨"i1", "f1", [⟨0, 0⟩], [⟨0, 0⟩]⟩ = -100 := by
    unfold imageSimilarity
    simp only [mhd_single_zero, dts_zero, relOrder_single]
    show round ((-1 : ℝ) * ((100 : ℤ) : ℝ) + (0 : ℝ) * ((100 : ℤ) : ℝ)) = (-100 : ℤ)
    have harg : ((-1 : ℝ) * ((100 : ℤ) : ℝ) + (0 : ℝ) * ((100 : ℤ) : ℝ)) =
        ((-100 : ℤ) : ℝ) := by
      push_cast
      norm_num
    rw [harg, round_intCast]
  have hscore : scoreRoute [⟨0, 0⟩] [⟨0, 0⟩] ⟨0.6, -1, 0⟩
      ⟨"r1", "route", [⟨"i1", "f1", [⟨0, 0⟩], [⟨0, 0⟩]⟩], "t"⟩ =
      ⟨⟨"r1", "route", [⟨"i1", "f1", [⟨0, 0⟩], [⟨0, 0⟩]⟩], "t"⟩, 0, ""⟩ := by
    unfold scoreRoute
    simp only [List.foldl_cons, List.foldl_nil, himg]
    norm_num
  constructor
  · show ((List.insertionSort resultLE
      (([⟨"r1", "route", [⟨"i1", "f1", [⟨0, 0⟩], [⟨0, 0⟩]⟩], "t"⟩] : List Route).map
        (scoreRoute (normalizePoints [⟨0, 0⟩]) [⟨0, 0⟩]
          (resolveOptions ⟨none, some (-1), some 0⟩)))).take 10).map (fun r => r.similarity) = [0]
    rw [hresolved, hnq, List.map_cons, List.map_nil, hscore]
    simp [List.insertionSort]
  · rw [show (⟨"r1", "route", [⟨"i1", "f1", [⟨0, 0⟩], [⟨0, 0⟩]⟩], "t"⟩ : Route).images =
      [⟨"i1", "f1", [⟨0, 0⟩], [⟨0, 0⟩]⟩] from rfl, List.map_cons, List.map_nil,
      hresolved, hnq, himg]

/-- C1 (amended): `searchRoutes` ranks, before truncation, exactly one
result per route (a permutation of the per-route scores); each route is
scored with the maximum of `0` and the combined scores of its images
(equal to the maximum combined image score whenever that maximum is
nonnegative, e.g. under nonnegative weights — but not for arbitrary
unvalidated weights, and `0` for a route with no images); the ranking is
sorted in descending score order, ties retain the routes' input order
(stable sort), and the returned list is the first `maxResults` entries. -/
theorem searchRoutes_ranking_amended (q : List Point) (routes : List Route) (k : ℕ)
    (o : MatchingOptions) :
    (searchRoutes q routes k o).length = min k routes.length ∧
    searchRoutes q routes k o = (searchRoutes q routes routes.length o).take k ∧
    (searchRoutes q routes routes.length o).Perm
      (routes.map (scoreRoute (normalizePoints q) q (resolveOptions o))) ∧
    List.Pairwise resultLE (searchRoutes q routes k o) ∧
    (∀ s : ℤ, (searchRoutes q routes routes.length o).filter (fun r => r.similarity == s) =
      (routes.map (scoreRoute (normalizePoints q) q (resolveOptions o))).filter
        (fun r => r.similarity == s)) ∧
    (∀ route : Route,
      (scoreRoute (normalizePoints q) q (resolveOptions o) route).route = route ∧
      (scoreRoute (normalizePoints q) q (resolveOptions o) route).similarity =
        route.images.foldl
          (fun m image => max m (imageSimilarity (normalizePoints q) q (resolveOptions o) image))
          0) := by
  have hsr : ∀ n : ℕ, searchRoutes q routes n o =
      (List.insertionSort resultLE
        (routes.map (scoreRoute (normalizePoints q) q (resolveOptions o)))).take n :=
    fun n => rfl
  have hlen_sorted : (List.insertionSort resultLE
      (routes.map (scoreRoute (normalizePoints q) q (resolveOptions o)))).length =
      routes.length := by
    rw [List.length_insertionSort, List.length_map]
  have htake_all : (List.insertionSort resultLE
      (routes.map (scoreRoute (normalizePoints q) q (resolveOptions o)))).take routes.length =
      List.insertionSort resultLE
        (routes.map (scoreRoute (normalizePoints q) q (resolveOptions o))) :=
    List.take_of_length_le (le_of_eq hlen_sorted)
  refine ⟨?_, ?_, ?_, ?_, ?_, ?_⟩
  · rw [hsr k, List.length_take, hlen_sorted]
  · rw [hsr k, hsr routes.length, htake_all]
  · rw [hsr routes.length, htake_all]
    exact List.perm_insertionSort resultLE _
  · rw [hsr k]
    exact (List.sorted_insertionSort resultLE _).sublist (List.take_sublist _ _)
  · intro s
    rw [hsr routes.length, htake_all]
    exact filter_insertionSort_sim s _
  · intro route
    exact ⟨scoreRoute_route _ _ _ _, scoreRoute_similarity _ _ _ _⟩

/-- C10 counterexample: two routes whose best combined score is `0` (each
has one image, so images exist), searched with `topK = 1` — the
second route gets no entry at all, because the zero-scored entry is cut by
the `topK` truncation; so "searchRoutes still returns an entry for the
route" does not hold unconditionally. -/
theorem searchRoutes_zero_entry_cex :
    (searchRoutes [] [⟨"1", "r1", [⟨"i1", "f1", [], []⟩], "t"⟩,
        ⟨"2", "r2", [⟨"i2", "f2", [], []⟩], "t"⟩] 1 emptyOptions).map
      (fun r => r.route.id) = ["1"] ∧
    (⟨"2", "r2", [⟨"i2", "f2", [], []⟩], "t"⟩ : Route).images ≠ [] ∧
    scoreRoute (normalizePoints []) [] (resolveOptions emptyOptions)
      ⟨"2", "r2", [⟨"i2", "f2", [], []⟩], "t"⟩ =
      ⟨⟨"2", "r2", [⟨"i2", "f2", [], []⟩], "t"⟩, 0, ""⟩ := by
  have hnq : normalizePoints [] = [] := by simp [normalizePoints]
  have himg : ∀ i f : String,
      imageSimilarity [] [] ⟨0.6, 0.6, 0.4⟩ ⟨i, f, [], []⟩ = 0 := by
    intro i f
    unfold imageSimilarity
    simp only [mhd_nil_nil, dts_top, relOrder_nil_nil]
    show round ((0.6 : ℝ) * ((0 : ℤ) : ℝ) + (0.4 : ℝ) * ((0 : ℤ) : ℝ)) = (0 : ℤ)
    have harg : ((0.6 : ℝ) * ((0 : ℤ) : ℝ) + (0.4 : ℝ) * ((0 : ℤ) : ℝ)) = ((0 : ℤ) : ℝ) := by
      push_cast
      norm_num
    rw [harg, round_intCast]
  have hscore : ∀ id name i f t : String,
      scoreRoute [] [] ⟨0.6, 0.6, 0.4⟩ ⟨id, name, [⟨i, f, [], []⟩], t⟩ =
      ⟨⟨id, name, [⟨i, f, [], []⟩], t⟩, 0, ""⟩ := by
    intro id name i f t
    unfold scoreRoute
    simp only [List.foldl_cons, List.foldl_nil, himg]
    norm_num
  refine ⟨?_, by simp, ?_⟩
  · show ((List.insertionSort resultLE
      (([⟨"1", "r1", [⟨"i1", "f1", [], []⟩], "t"⟩,
         ⟨"2", "r2", [⟨"i2", "f2", [], []⟩], "t"⟩] : List Route).map
        (scoreRoute (normalizePoints []) [] (resolveOptions emptyOptions)))).take 1).map
      (fun r => r.route.id) = ["1"]
    rw [resolve_emptyOptions, hnq, List.map_cons, List.map_cons, List.map_nil,
      hscore, hscore]
    simp [List.insertionSort, List.orderedInsert, resultLE]
  · rw [resolve_emptyOptions, hnq]
    exact hscore "2" "r2" "i2" "f2" "t"

/-- C10 (amended): provided the route survives the `topK` truncation (for
instance when `topK` is at least the number of routes), `searchRoutes`
returns an entry for every route; when every image of the route scores at
most 0 — in particular when every image scores exactly 0, not only when
the route has no images — that entry is `(route, 0, "")`, reporting no
image id even though images exist; and when the route's best score is
positive, the reported image is the earliest image attaining it. -/
theorem searchRoutes_zero_and_ties (q : List Point) (routes : List Route) (k : ℕ)
    (o : MatchingOptions) (route : Route) (hmem : route ∈ routes)
    (hk : routes.length ≤ k) :
    scoreRoute (normalizePoints q) q (resolveOptions o) route ∈ searchRoutes q routes k o ∧
    ((∀ image ∈ route.images,
        imageSimilarity (normalizePoints q) q (resolveOptions o) image ≤ 0) →
      scoreRoute (normalizePoints q) q (resolveOptions o) route = ⟨route, 0, ""⟩) ∧
    (0 < route.images.foldl
        (fun m image => max m (imageSimilarity (normalizePoints q) q (resolveOptions o) image))
        0 →
      (scoreRoute (normalizePoints q) q (resolveOptions o) route).matchedImageId =
        ((route.images.filter (fun image =>
            imageSimilarity (normalizePoints q) q (resolveOptions o) image ==
            route.images.foldl
              (fun m i => max m (imageSimilarity (normalizePoints q) q (resolveOptions o) i))
              0)).head?.map (fun image => image.id)).getD "") := by
  refine ⟨?_, ?_, ?_⟩
  · have hsr : searchRoutes q routes k o = List.insertionSort resultLE
        (routes.map (scoreRoute (normalizePoints q) q (resolveOptions o))) := by
      show (List.insertionSort resultLE
        (routes.map (scoreRoute (normalizePoints q) q (resolveOptions o)))).take k = _
      exact List.take_of_length_le
        (by rw [List.length_insertionSort, List.length_map]; exact hk)
    rw [hsr]
    exact ((List.perm_insertionSort resultLE _).mem_iff).2 (List.mem_map_of_mem _ hmem)
  · intro hall
    have h1 : (scoreRoute (normalizePoints q) q (resolveOptions o) route).similarity = 0 := by
      rw [scoreRoute_similarity]
      exact foldl_max_const _ route.images 0 hall
    have hfold : route.images.foldl
        (fun m image => max m (imageSimilarity (normalizePoints q) q (resolveOptions o) image))
        0 = 0 := foldl_max_const _ route.images 0 hall
    have h2 : (scoreRoute (normalizePoints q) q (resolveOptions o) route).matchedImageId = "" := by
      rw [scoreRoute_matchedImageId, hfold, if_neg (lt_irrefl 0)]
    have heta : scoreRoute (normalizePoints q) q (resolveOptions o) route =
        ⟨(scoreRoute (normalizePoints q) q (resolveOptions o) route).route,
         (scoreRoute (normalizePoints q) q (resolveOptions o) route).similarity,
         (scoreRoute (normalizePoints q) q (resolveOptions o) route).matchedImageId⟩ := rfl
    rw [heta, scoreRoute_route, h1, h2]
  · intro hpos
    rw [scoreRoute_matchedImageId, if_pos hpos]

/-- C10 witness: a one-route search with `topK = 1` satisfying the
hypotheses of the amended theorem. -/
theorem searchRoutes_zero_and_ties_witness :
    ((⟨"r", "rt", [⟨"i", "f", [⟨0, 0⟩], [⟨0, 0⟩]⟩], "t"⟩ : Route) ∈
      [(⟨"r", "rt", [⟨"i", "f", [⟨0, 0⟩], [⟨0, 0⟩]⟩], "t"⟩ : Route)]) ∧
    ([(⟨"r", "rt", [⟨"i", "f", [⟨0, 0⟩], [⟨0, 0⟩]⟩], "t"⟩ : Route)].length ≤ 1) ∧
    scoreRoute (normalizePoints [⟨0, 0⟩]) [⟨0, 0⟩] (resolveOptions emptyOptions)
        (⟨"r", "rt", [⟨"i", "f", [⟨0, 0⟩], [⟨0, 0⟩]⟩], "t"⟩ : Route) ∈
      searchRoutes [⟨0, 0⟩] [⟨"r", "rt", [⟨"i", "f", [⟨0, 0⟩], [⟨0, 0⟩]⟩], "t"⟩] 1
        emptyOptions :=
  ⟨by simp, by simp,
    (searchRoutes_zero_and_ties [⟨0, 0⟩]
      [⟨"r", "rt", [⟨"i", "f", [⟨0, 0⟩], [⟨0, 0⟩]⟩], "t"⟩] 1 emptyOptions
      ⟨"r", "rt", [⟨"i", "f", [⟨0, 0⟩], [⟨0, 0⟩]⟩], "t"⟩ (by simp) (by simp)).1⟩

/-! Totality: the division-checked variants never fail. -/

theorem some_bind {α β : Type} (a : α) (f : α → Option β) : (some a >>= f) = f a := rfl

theorem divC_eq {b : ℝ} (hb : b ≠ 0) (a : ℝ) : divC a b = some (a / b) := by
  simp [divC, hb]

theorem meanC_eq (l : List ℝ) : meanC l = some (mean l) := by
  unfold meanC mean
  by_cases hl : l = []
  · simp [hl]
  · rw [if_neg hl, if_neg hl, divC_eq]
    exact_mod_cast (List.length_pos_of_ne_nil hl).ne'

theorem mapM_pointDiv_eq {rms : ℝ} (hr : rms ≠ 0) :
    ∀ l : List Point,
      (l.mapM (fun p => do
        let nx ← divC p.x rms
        let ny ← divC p.y rms
        some (⟨nx, ny⟩ : Point))) =
      some (l.map (fun p => (⟨p.x / rms, p.y / rms⟩ : Point))) := by
  intro l
  induction l with
  | nil => rfl
  | cons p t ih =>
    rw [List.mapM_cons, ih]
    simp only [divC_eq hr, some_bind]
    rfl

theorem normalizePointsC_eq (points : List Point) :
    normalizePointsC points = some (normalizePoints points) := by
  unfold normalizePointsC normalizePoints
  by_cases h0 : points.length = 0
  · simp [h0]
  by_cases h1 : points.length = 1
  · simp [h0, h1]
  rw [if_neg h0, if_neg h1, if_neg h0, if_neg h1]
  simp only [meanC_eq, some_bind]
  split
  · rfl
  · rw [mapM_pointDiv_eq (by assumption)]

theorem modifiedHausdorffDistanceC_eq (A B : List Point) :
    modifiedHausdorffDistanceC A B = some (modifiedHausdorffDistance A B) := by
  unfold modifiedHausdorffDistanceC modifiedHausdorffDistance
  by_cases h : A.length = 0 ∨ B.length = 0
  · rw [if_pos h, if_pos h]
  · rw [if_neg h, if_neg h]
    simp only [meanC_eq, some_bind]

theorem distanceToSimilarityC_eq (d : ℝ≥0∞) (m : ℝ) :
    distanceToSimilarityC d m = some (distanceToSimilarity d m) := by
  unfold distanceToSimilarityC distanceToSimilarity
  by_cases h : ENNReal.ofReal m ≤ d
  · simp [h]
  · rw [if_neg h, if_neg h]
    have hm : m ≠ 0 := by
      have hpos : 0 < ENNReal.ofReal m := lt_of_le_of_lt (zero_le d) (not_le.1 h)
      exact (ENNReal.ofReal_pos.1 hpos).ne'
    rw [divC_eq hm, some_bind]

theorem dtwDistanceC_eq (a b : List ℝ) : dtwDistanceC a b = some (dtwDistance a b) := by
  unfold dtwDistanceC dtwDistance
  by_cases h : a.length = 0 ∨ b.length = 0
  · rw [if_pos h, if_pos h]
  · rw [if_neg h, if_neg h]
    unfold divE
    rw [if_neg]
    intro hmax
    rcases Nat.max_eq_zero_iff.1 hmax with ⟨ha, _⟩
    exact h (Or.inl ha)

theorem mapM_divC_eq {mn mx : ℝ} (h : mx - mn ≠ 0) :
    ∀ l : List ℝ,
      (l.mapM (fun v => divC (v - mn) (mx - mn))) =
      some (l.map (fun v => (v - mn) / (mx - mn))) := by
  intro l
  induction l with
  | nil => rfl
  | cons v t ih =>
    rw [List.mapM_cons, ih]
    simp only [divC_eq h, some_bind]
    rfl

theorem minmaxNormalizeC_eq (seq : List ℝ) :
    minmaxNormalizeC seq = some (minmaxNormalize seq) := by
  unfold minmaxNormalizeC minmaxNormalize
  by_cases h : jsMax seq = jsMin seq
  · simp [h]
  · rw [if_neg h, if_neg h]
    exact mapM_divC_eq (sub_ne_zero_of_ne h) seq

theorem relativeOrderSimilarityC_eq (A B : List Point) :
    relativeOrderSimilarityC A B = some (relativeOrderSimilarity A B) := by
  unfold relativeOrderSimilarityC relativeOrderSimilarity
  by_cases h1 : A.length = 0 ∨ B.length = 0
  · rw [if_pos h1, if_pos h1]
  rw [if_neg h1, if_neg h1]
  by_cases h2 : A.length = 1 ∧ B.length = 1
  · rw [if_pos h2, if_pos h2]
  rw [if_neg h2, if_neg h2]
  simp only [minmaxNormalizeC_eq, dtwDistanceC_eq, some_bind]
  split
  · rfl
  · rw [divC_eq (show (1.0 : ℝ) ≠ 0 by norm_num), some_bind]

theorem combinedSimilarityC_eq (s o : ℝ) (w : Weights) :
    combinedSimilarityC s o w = some (combinedSimilarity s o w) := rfl

theorem imageSimilarityC_eq (nq qp : List Point) (opts : ResolvedOptions)
    (image : LabeledImage) :
    imageSimilarityC nq qp opts image = some (imageSimilarity nq qp opts image) := by
  unfold imageSimilarityC imageSimilarity
  simp only [modifiedHausdorffDistanceC_eq, distanceToSimilarityC_eq,
    relativeOrderSimilarityC_eq, some_bind]
  rfl

theorem foldlM_option_eq {α β : Type} (g : β → α → β) (gC : β → α → Option β)
    (h : ∀ b a, gC b a = some (g b a)) :
    ∀ (l : List α) (b : β), l.foldlM gC b = some (l.foldl g b) := by
  intro l
  induction l with
  | nil => intro b; rfl
  | cons a t ih =>
    intro b
    rw [List.foldlM_cons, h, some_bind]
    exact ih (g b a)

theorem mapM_option_eq {α β : Type} (g : α → β) (gC : α → Option β)
    (h : ∀ a, gC a = some (g a)) :
    ∀ l : List α, l.mapM gC = some (l.map g) := by
  intro l
  induction l with
  | nil => rfl
  | cons a t ih =>
    rw [List.mapM_cons, h]
    simp only [ih, some_bind]
    rfl

theorem scoreRouteC_eq (nq qp : List Point) (opts : ResolvedOptions) (route : Route) :
    scoreRouteC nq qp opts route = some (scoreRoute nq qp opts route) := by
  unfold scoreRouteC scoreRoute
  rw [foldlM_option_eq
    (fun acc image =>
      if acc.1 < imageSimilarity nq qp opts image
      then (imageSimilarity nq qp opts image, image.id) else acc)
    _
    (fun b a => by rw [imageSimilarityC_eq]; rfl)]
  rfl

theorem searchRoutesC_eq (q : List Point) (routes : List Route) (k : ℕ)
    (o : MatchingOptions) :
    searchRoutesC q routes k o = some (searchRoutes q routes k o) := by
  unfold searchRoutesC searchRoutes
  simp only [normalizePointsC_eq, some_bind]
  rw [mapM_option_eq _ _ (scoreRouteC_eq (normalizePoints q) q (resolveOptions o)),
    some_bind]
  rfl

/-- C9: every core function is total over its (real-number) input domain:
the division-instrumented variants — in which every division the source
performs fails on a zero denominator — succeed on all inputs and return
exactly the plain embedding's value, so the empty-input, single-point,
coincident-point (RMS 0) and all-equal-sequence (min = max) guards make
every division well-defined and no function can throw. -/
theorem core_functions_total :
    (∀ points : List Point, normalizePointsC points = some (normalizePoints points)) ∧
    (∀ A B : List Point,
      modifiedHausdorffDistanceC A B = some (modifiedHausdorffDistance A B)) ∧
    (∀ (d : ℝ≥0∞) (m : ℝ), distanceToSimilarityC d m = some (distanceToSimilarity d m)) ∧
    (∀ a b : List ℝ, dtwDistanceC a b = some (dtwDistance a b)) ∧
    (∀ A B : List Point,
      relativeOrderSimilarityC A B = some (relativeOrderSimilarity A B)) ∧
    (∀ (s o : ℝ) (w : Weights), combinedSimilarityC s o w = some (combinedSimilarity s o w)) ∧
    (∀ (q : List Point) (routes : List Route) (k : ℕ) (o : MatchingOptions),
      searchRoutesC q routes k o = some (searchRoutes q routes k o)) :=
  ⟨normalizePointsC_eq, modifiedHausdorffDistanceC_eq, distanceToSimilarityC_eq,
   dtwDistanceC_eq, relativeOrderSimilarityC_eq, combinedSimilarityC_eq, searchRoutesC_eq⟩

end Matching
